import Mathlib

/-!
Formal model of the core of `cnu-sm-research` (`src/api.py`): the
rate-limited request manager (`RedditRequestManager`), the paginated
search collector (`search_posts`) and the comment-tree reconstruction
(`get_comments` with its inner `dfs_comments` / `dfs_morechildren`).

The embedding is shallow: the mutable `deque` of request timestamps is a
`List Int` whose head is the front (oldest entry), HTTP traffic is
abstracted by explicit response values (an "oracle" list of responses for
the endpoints driven in a loop), and the two clock reads inside
`_request_get` become explicit `now1` / `now2` arguments.  Credential
loading, token acquisition, URL string building and JSON parsing are I/O
collaborators outside the modelled core.
-/

/-! ## Rate-limited request manager (`RedditRequestManager`) -/

/-- `queue[0] if len(queue) else -1` (api.py line 105-107): the front of
the timestamp deque, or `-1` when it is empty. -/
def oldestEntry (q : List Int) : Int :=
  match q with
  | [] => -1
  | t :: _ => t

/-- The pruning loop of `_request_get` (api.py lines 120-124):
`while len(q) > 0 and now - oldest_request_unixtime > window_time: q.popleft()`.
Note that `oldest_request_unixtime` is the value captured before the loop
and is never recomputed inside it. -/
def pruneLoop (windowTime now oldest : Int) : List Int → List Int
  | [] => []
  | t :: rest =>
    if now - oldest > windowTime then pruneLoop windowTime now oldest rest
    else t :: rest

/-- `deque.append` for a deque with `maxlen = m` (front = head of the
list): when the deque is full the leftmost (oldest) entry is discarded. -/
def dequeAppend (m : Nat) (q : List Int) (t : Int) : List Int :=
  if q.length < m then q ++ [t]
  else if m = 0 then []
  else q.tail ++ [t]

/-- `deque.appendleft` for a deque with `maxlen = m`: when the deque is
full the rightmost (newest) entry is discarded. -/
def dequeAppendLeft (m : Nat) (q : List Int) (t : Int) : List Int :=
  if q.length < m then t :: q
  else if m = 0 then []
  else t :: q.dropLast

/-- The backfill loop of quota reconciliation (api.py lines 149-150):
`for _ in range(requests_used - 1): queue.appendleft(now - time_until_window_reset)`. -/
def backfill (m : Nat) (k : Nat) (t : Int) (q : List Int) : List Int :=
  match k with
  | 0 => q
  | Nat.succ k' => backfill m k' t (dequeAppendLeft m q t)

/-- The successive queue values produced by the backfill loop, one entry
per `appendleft`. -/
def backfillTrace (m : Nat) (k : Nat) (t : Int) (q : List Int) : List (List Int) :=
  match k with
  | 0 => []
  | Nat.succ k' => dequeAppendLeft m q t :: backfillTrace m k' t (dequeAppendLeft m q t)

/-- The three optional rate-limit response headers, already parsed to
integers (`int(...)` / `int(float(...))` in the source).  `none` models a
header that is absent from the response. -/
structure RespHeaders where
  used : Option Int
  remaining : Option Int
  reset : Option Int
deriving DecidableEq

/-- An HTTP response as observed by `_request_get`: status code plus the
rate-limit headers. -/
structure Resp where
  status : Nat
  headers : RespHeaders
deriving DecidableEq

/-- The mutable state of a `RedditRequestManager`: the `_just_started`
flag, the (clamped) configuration, and the timestamp deque
`_request_unixtime_queue` (head = front = oldest). -/
structure RMState where
  justStarted : Bool
  windowTime : Int
  maxRequests : Nat
  queue : List Int
deriving DecidableEq

/-- The two exception paths of `_request_get`: a non-200 status
(`requests.RequestException`) and a `KeyError` from looking up
`X-Ratelimit-Reset` / `X-Ratelimit-Remaining` when absent. -/
inductive ReqError where
  | badStatus
  | missingHeader
deriving DecidableEq

/-- `RedditRequestManager.__init__` (api.py lines 68-85): clamp
`window_time_sec` to 600 and `max_requests_in_window` to 1000, start with
the `_just_started` flag set and an empty deque. -/
def initState (windowTimeSec : Int) (maxRequestsInWindow : Nat) : RMState :=
  { justStarted := true
    windowTime := if windowTimeSec > 600 then 600 else windowTimeSec
    maxRequests := if maxRequestsInWindow > 1000 then 1000 else maxRequestsInWindow
    queue := [] }

/-- The admission-control condition of `_request_get` (api.py lines
109-112): the call blocks while the deque is full and the oldest entry is
still inside the window.  The loop exits (and the request proceeds) at a
clock value `now` for which this is false. -/
def admissionBlocked (s : RMState) (now : Int) : Prop :=
  s.queue.length = s.maxRequests ∧ now - oldestEntry s.queue < s.windowTime

/-- Quota reconciliation (api.py lines 134-151), acting on the state
`s2` already holding the just-appended timestamp: if `X-Ratelimit-Used`
is absent, proceed; otherwise, when `_just_started` and `used > 1`, look
up `X-Ratelimit-Reset` then `X-Ratelimit-Remaining` (a `KeyError` when
either is absent), clamp the reset time to the window time, push
`used - 1` synthetic entries onto the front of the deque and clear
`_just_started`. -/
def reconcileStep (s2 : RMState) (now2 : Int) (h : RespHeaders) : RMState × Option ReqError :=
  match h.used with
  | none => (s2, none)
  | some used =>
    if s2.justStarted = true ∧ 1 < used then
      match h.reset with
      | none => (s2, some ReqError.missingHeader)
      | some reset0 =>
        match h.remaining with
        | none => (s2, some ReqError.missingHeader)
        | some _ =>
          ({ s2 with
              queue := backfill s2.maxRequests (used - 1).toNat
                (now2 - (if s2.windowTime < reset0 then s2.windowTime else reset0)) s2.queue
              justStarted := false }, none)
    else (s2, none)

/-- `RedditRequestManager._request_get` (api.py lines 104-153) after the
admission-control loop has exited: prune with the pre-loop `oldest`
value at clock `now1`, append the fresh timestamp read at clock `now2`,
send the request (response given as `resp`), raise on a non-200 status,
then reconcile quota.  Returns the updated state together with the
exception raised, if any. -/
def request_get (s : RMState) (now1 now2 : Int) (resp : Resp) : RMState × Option ReqError :=
  let s2 : RMState :=
    { s with
        queue := dequeAppend s.maxRequests
          (pruneLoop s.windowTime now1 (oldestEntry s.queue) s.queue) now2 }
  if resp.status ≠ 200 then (s2, some ReqError.badStatus)
  else reconcileStep s2 now2 resp.headers

/-- The queue values produced by the reconciliation phase, one per
`appendleft` of the backfill loop. -/
def reconcileTrace (s2 : RMState) (now2 : Int) (h : RespHeaders) : List (List Int) :=
  match h.used with
  | none => []
  | some used =>
    if s2.justStarted = true ∧ 1 < used then
      match h.reset, h.remaining with
      | some reset0, some _ =>
        backfillTrace s2.maxRequests (used - 1).toNat
          (now2 - (if s2.windowTime < reset0 then s2.windowTime else reset0)) s2.queue
      | _, _ => []
    else []

/-- Every queue value taken by `_request_unixtime_queue` during one call
of `_request_get`: after pruning, after appending the fresh timestamp,
and after each single `appendleft` of the reconciliation backfill. -/
def request_getTrace (s : RMState) (now1 now2 : Int) (resp : Resp) : List (List Int) :=
  let q1 := pruneLoop s.windowTime now1 (oldestEntry s.queue) s.queue
  let s2 : RMState := { s with queue := dequeAppend s.maxRequests q1 now2 }
  q1 :: s2.queue :: (if resp.status ≠ 200 then [] else reconcileTrace s2 now2 resp.headers)

/-- One call to the request executor: the two clock readings and the
response the server gives. -/
structure CallInput where
  now1 : Int
  now2 : Int
  resp : Resp
deriving DecidableEq

/-- All queue values taken during a sequence of `_request_get` calls. -/
def runTrace (s : RMState) : List CallInput → List (List Int)
  | [] => []
  | c :: rest =>
    request_getTrace s c.now1 c.now2 c.resp ++
      runTrace (request_get s c.now1 c.now2 c.resp).1 rest

/-! ## Comment-tree reconstruction (`get_comments`) -/

/-- `BATCH_SIZE` (api.py line 20): maximal number of ids per
`/api/morechildren` request. -/
def BATCH_SIZE : Nat := 100

mutual
/-- A node of the initial nested comment listing: an ordinary comment
(`kind != "more"`) carrying its id and its `replies` field, or a `"more"`
placeholder carrying its list of pending child ids. -/
inductive Thing where
  | comment (id : String) (replies : Replies)
  | more (children : List String)

/-- The `replies` field of a comment: the empty string `""`, or a nested
listing of further things. -/
inductive Replies where
  | empty
  | listing (children : ThingList)

/-- A listing's `data.children` array. -/
inductive ThingList where
  | nil
  | cons (t : Thing) (ts : ThingList)
end

mutual
/-- The body of `dfs_comments` (api.py lines 251-264) for one node:
returns the comment records appended (represented by their ids) and the
ids added to `more_children`, in order. -/
def dfsThing : Thing → List String × List String
  | Thing.comment i reps =>
    match reps with
    | Replies.empty => ([i], [])
    | Replies.listing ts =>
      let p := dfs_comments ts
      (i :: p.1, p.2)
  | Thing.more children => ([], children)

/-- `dfs_comments` (api.py lines 251-266) over a listing: depth-first
walk appending ordinary comments to `comments_data` and collecting the
child ids of `"more"` placeholders into `more_children`. -/
def dfs_comments : ThingList → List String × List String
  | ThingList.nil => ([], [])
  | ThingList.cons t ts =>
    let p := dfsThing t
    let q := dfs_comments ts
    (p.1 ++ q.1, p.2 ++ q.2)
end

/-- A "thing" returned by the `/api/morechildren` endpoint
(api.py lines 281-290): its kind (`"more"` or not), its `count`, the id
of its data record, its pending child ids, and its `replies`, which here
is a flat id list — `none` models a data record without a `replies`
key. -/
structure MCThing where
  isMore : Bool
  count : Int
  id : String
  children : List String
  replies : Option (List String)
deriving DecidableEq

/-- The inner `for thing in things` loop of `dfs_morechildren`
(api.py lines 284-290): returns the appended comment record ids and the
ids collected into `next_comment_ids`, in order.  A `"more"` thing with
`count > 0` contributes its children to the next frontier; any other
thing is appended as a record, and its non-empty `replies` id list is
also pushed onto the next frontier. -/
def process_things : List MCThing → List String × List String
  | [] => ([], [])
  | t :: ts =>
    let rest := process_things ts
    if t.isMore = true ∧ 0 < t.count then (rest.1, t.children ++ rest.2)
    else
      let extra :=
        match t.replies with
        | some reps => if 0 < reps.length then reps else []
        | none => []
      (t.id :: rest.1, extra ++ rest.2)

/-- The id slices requested by the chunk loop of `dfs_morechildren`
(api.py lines 271-274): `comment_ids[100*i : 100*i + 100]` for
`i in range(1 + len(comment_ids) // BATCH_SIZE)`. -/
def mcChunks (ids : List String) : List (List String) :=
  (List.range (1 + ids.length / BATCH_SIZE)).map
    (fun i => (ids.drop (BATCH_SIZE * i)).take BATCH_SIZE)

/-- The chunk loop of `dfs_morechildren` (api.py lines 270-293) run over
a precomputed chunk list.  Each chunk issues one batch request, consuming
the next response from `oracle`; after processing the response's things,
a non-empty `next_comment_ids` is expanded immediately by a recursive
`dfs_morechildren` call (inside the chunk loop), before the remaining
chunks are processed.  `fuel` bounds the number of loop steps (one per
chunk and one per nested expansion) so the function is total; a run that
would need more steps, or that outruns the oracle, returns `none`.  Returns the appended record ids, the id batches
requested (in request order), and the unconsumed oracle suffix. -/
def mcGo : Nat → List (List String) → List (List MCThing) →
    Option (List String × List (List String) × List (List MCThing))
  | _, [], oracle => some ([], [], oracle)
  | _, _ :: _, [] => none
  | 0, _ :: _, _ :: _ => none
  | Nat.succ fuel, chunk :: rest, things :: oracle1 =>
    match (if 0 < (process_things things).2.length then
            mcGo fuel (mcChunks (process_things things).2) oracle1
          else some ([], [], oracle1)) with
    | none => none
    | some (a2, r2, o2) =>
      match mcGo fuel rest o2 with
      | none => none
      | some (aR, rR, oR) =>
        some ((process_things things).1 ++ a2 ++ aR, chunk :: (r2 ++ rR), oR)

/-- `dfs_morechildren` (api.py lines 270-295): slice the frontier into
chunks and run the chunk loop. -/
def dfs_morechildren (fuel : Nat) (ids : List String) (oracle : List (List MCThing)) :
    Option (List String × List (List String) × List (List MCThing)) :=
  mcGo fuel (mcChunks ids) oracle

/-- `get_comments` (api.py lines 232-301) with the initial comment-tree
response given as `tree` and the `/api/morechildren` responses given by
`oracle`: phase 1 walks the tree with `dfs_comments`; when the collected
frontier is non-empty, phase 2 expands it with `dfs_morechildren`.
Returns the flat list of comment record ids and the id batches
requested. -/
def get_comments (fuel : Nat) (tree : ThingList) (oracle : List (List MCThing)) :
    Option (List String × List (List String)) :=
  let p := dfs_comments tree
  if 0 < p.2.length then
    match dfs_morechildren fuel p.2 oracle with
    | none => none
    | some (a2, reqs, _) => some (p.1 ++ a2, reqs)
  else some (p.1, [])

/-! ## Paginated search collector (`search_posts`) -/

/-- One page returned by the search endpoint: the post ids under
`data.children` and the `data.after` pagination cursor. -/
structure SearchPage where
  postIds : List String
  after : Option String
deriving DecidableEq

/-- `seen_ids.update(...)` (api.py lines 202-204): a Python `set` is
modelled as a duplicate-free list; only its size and membership are
observable. -/
def updateSeen (seen : List String) (ids : List String) : List String :=
  ids.foldl (fun s i => if i ∈ s then s else s ++ [i]) seen

/-- The `while len(seen_ids) < num_results` loop of `search_posts`
(api.py lines 199-217), with successive pages supplied by `oracle`.
Returns the pages accumulated into `results` and the number of requests
issued; `none` if the loop would outrun the oracle. -/
def searchLoop (numResults : Nat) (oracle : List SearchPage) (seen : List String) :
    Option (List SearchPage × Nat) :=
  if numResults ≤ seen.length then some ([], 0)
  else
    match oracle with
    | [] => none
    | p :: rest =>
      match p.after with
      | none => some ([p], 1)
      | some _ =>
        match searchLoop numResults rest (updateSeen seen p.postIds) with
        | none => none
        | some (ps, n) => some (p :: ps, n + 1)

/-- `search_posts` (api.py lines 178-229): run the pagination loop, then
flatten every accumulated page into one ordered list of post records,
each tagged with the originating query term (a record is modelled as the
pair of its post id and its `query` provenance field). -/
def search_posts (queryTerm : String) (numResults : Nat) (oracle : List SearchPage) :
    Option (List (String × String) × Nat) :=
  match searchLoop numResults oracle [] with
  | none => none
  | some (pages, n) =>
    some ((pages.map (fun p => p.postIds.map (fun i => (i, queryTerm)))).flatten, n)

/-- The loop structure of `search_posts` as described by its contract:
starting from a seen-id set `seen`, the loop body runs once per listed
page; it runs only while the seen count is below the target, continues to
a further page only when the server supplies an `after` cursor, and stops
either because the cursor is absent (`last`) or because the seen count
has reached the target (`done`). -/
inductive LoopRun (num : Nat) : List String → List SearchPage → Prop
  | done (seen : List String) : num ≤ seen.length → LoopRun num seen []
  | last (seen : List String) (p : SearchPage) :
      seen.length < num → p.after = none → LoopRun num seen [p]
  | step (seen : List String) (p : SearchPage) (rest : List SearchPage) (a : String) :
      seen.length < num → p.after = some a →
      LoopRun num (updateSeen seen p.postIds) rest → LoopRun num seen (p :: rest)

/-! ## Lemmas about the rate window -/

theorem pruneLoop_length_le (wt now old : Int) (q : List Int) :
    (pruneLoop wt now old q).length ≤ q.length := by
  induction q with
  | nil => simp [pruneLoop]
  | cons t rest ih =>
    simp only [pruneLoop]
    split
    · exact le_trans ih (by simp)
    · simp

theorem dequeAppend_length_le (m : Nat) (q : List Int) (t : Int) (h : q.length ≤ m) :
    (dequeAppend m q t).length ≤ m := by
  unfold dequeAppend
  split
  · rename_i hlt
    simp only [List.length_append, List.length_cons, List.length_nil]
    omega
  · split
    · simp_all
    · rename_i hge hm
      simp only [List.length_append, List.length_tail, List.length_cons, List.length_nil]
      omega

theorem dequeAppendLeft_length_le (m : Nat) (q : List Int) (t : Int) (h : q.length ≤ m) :
    (dequeAppendLeft m q t).length ≤ m := by
  unfold dequeAppendLeft
  split
  · rename_i hlt
    simp only [List.length_cons]
    omega
  · split
    · simp_all
    · rename_i hge hm
      simp only [List.length_cons, List.length_dropLast]
      omega

theorem backfill_length_le (m k : Nat) (t : Int) (q : List Int) (h : q.length ≤ m) :
    (backfill m k t q).length ≤ m := by
  induction k generalizing q with
  | zero => exact h
  | succ k ih => exact ih _ (dequeAppendLeft_length_le m q t h)

theorem backfillTrace_length_le (m k : Nat) (t : Int) (q : List Int) (h : q.length ≤ m) :
    ∀ q' ∈ backfillTrace m k t q, q'.length ≤ m := by
  induction k generalizing q with
  | zero => simp [backfillTrace]
  | succ k ih =>
    intro q' hq'
    simp only [backfillTrace, List.mem_cons] at hq'
    rcases hq' with h1 | h2
    · subst h1; exact dequeAppendLeft_length_le m q t h
    · exact ih _ (dequeAppendLeft_length_le m q t h) q' h2

theorem reconcileStep_maxRequests (s2 : RMState) (now2 : Int) (h : RespHeaders) :
    (reconcileStep s2 now2 h).1.maxRequests = s2.maxRequests := by
  unfold reconcileStep
  split <;> try rfl
  split <;> try rfl
  split <;> try rfl
  split <;> rfl

theorem reconcileStep_queue_length_le (s2 : RMState) (now2 : Int) (h : RespHeaders)
    (hq : s2.queue.length ≤ s2.maxRequests) :
    (reconcileStep s2 now2 h).1.queue.length ≤ s2.maxRequests := by
  unfold reconcileStep
  split
  · exact hq
  · split
    · split
      · exact hq
      · split
        · exact hq
        · exact backfill_length_le _ _ _ _ hq
    · exact hq

theorem request_get_maxRequests (s : RMState) (n1 n2 : Int) (r : Resp) :
    (request_get s n1 n2 r).1.maxRequests = s.maxRequests := by
  unfold request_get
  split
  · rfl
  · exact reconcileStep_maxRequests _ _ _

theorem request_get_queue_length_le (s : RMState) (n1 n2 : Int) (r : Resp)
    (h : s.queue.length ≤ s.maxRequests) :
    (request_get s n1 n2 r).1.queue.length ≤ s.maxRequests := by
  have hq2 : (dequeAppend s.maxRequests
      (pruneLoop s.windowTime n1 (oldestEntry s.queue) s.queue) n2).length ≤ s.maxRequests :=
    dequeAppend_length_le _ _ _ (le_trans (pruneLoop_length_le _ _ _ _) h)
  unfold request_get
  split
  · exact hq2
  · exact reconcileStep_queue_length_le _ _ _ hq2

theorem reconcileTrace_length_le (s2 : RMState) (now2 : Int) (h : RespHeaders)
    (hq : s2.queue.length ≤ s2.maxRequests) :
    ∀ q' ∈ reconcileTrace s2 now2 h, q'.length ≤ s2.maxRequests := by
  unfold reconcileTrace
  split
  · simp
  · split
    · split
      · exact backfillTrace_length_le _ _ _ _ hq
      · simp
    · simp

theorem request_getTrace_length_le (s : RMState) (n1 n2 : Int) (r : Resp)
    (h : s.queue.length ≤ s.maxRequests) :
    ∀ q' ∈ request_getTrace s n1 n2 r, q'.length ≤ s.maxRequests := by
  intro q' hq'
  have hq1 : (pruneLoop s.windowTime n1 (oldestEntry s.queue) s.queue).length ≤ s.maxRequests :=
    le_trans (pruneLoop_length_le _ _ _ _) h
  have hq2 : (dequeAppend s.maxRequests
      (pruneLoop s.windowTime n1 (oldestEntry s.queue) s.queue) n2).length ≤ s.maxRequests :=
    dequeAppend_length_le _ _ _ hq1
  simp only [request_getTrace, List.mem_cons] at hq'
  rcases hq' with h1 | h2 | h3
  · subst h1; exact hq1
  · subst h2; exact hq2
  · revert h3
    split
    · simp
    · intro h3
      exact reconcileTrace_length_le
        { s with queue := (dequeAppend s.maxRequests (pruneLoop s.windowTime n1 (oldestEntry s.queue) s.queue) n2) }
        n2 r.headers hq2 q' h3

theorem runTrace_length_le (calls : List CallInput) (s : RMState)
    (h : s.queue.length ≤ s.maxRequests) :
    ∀ q ∈ runTrace s calls, q.length ≤ s.maxRequests := by
  induction calls generalizing s with
  | nil => simp [runTrace]
  | cons c rest ih =>
    intro q hq
    simp only [runTrace, List.mem_append] at hq
    rcases hq with h1 | h2
    · exact request_getTrace_length_le _ _ _ _ h q h1
    · have hmax := request_get_maxRequests s c.now1 c.now2 c.resp
      have := ih (request_get s c.now1 c.now2 c.resp).1
        (by rw [hmax]; exact request_get_queue_length_le _ _ _ _ h) q h2
      rwa [hmax] at this

/-- Claim C1: for every sequence of calls to the request executor, the
rate window (`_request_unixtime_queue`) never holds more than
`max_requests_in_window` entries at any point — after pruning, after the
append, and after every single `appendleft` of the quota-reconciliation
backfill — starting from a freshly constructed manager. -/
theorem c1_window_never_exceeds_bound (wt : Int) (mx : Nat) (calls : List CallInput)
    (q : List Int) (hq : q ∈ runTrace (initState wt mx) calls) : q.length ≤ mx := by
  have hinit : (initState wt mx).queue.length ≤ (initState wt mx).maxRequests := by
    simp [initState]
  have hbound := runTrace_length_le calls (initState wt mx) hinit q hq
  have hclamp : (initState wt mx).maxRequests ≤ mx := by
    simp only [initState]
    split <;> omega
  exact le_trans hbound hclamp

/-- Witness for C1 at a concrete two-call run (the second response
triggers a backfill of 4 synthetic entries into a window of capacity 5). -/
theorem c1_window_never_exceeds_bound_witness :
    [-113, -113, -113, -113, 0] ∈
      runTrace (initState 600 5)
        [⟨0, 0, ⟨200, ⟨some 1, some 999, some 100⟩⟩⟩,
         ⟨7, 7, ⟨200, ⟨some 5, some 995, some 120⟩⟩⟩] ∧
    ([-113, -113, -113, -113, 0] : List Int).length ≤ 5 := by
  refine ⟨by decide, ?_⟩
  exact c1_window_never_exceeds_bound 600 5
    [⟨0, 0, ⟨200, ⟨some 1, some 999, some 100⟩⟩⟩,
     ⟨7, 7, ⟨200, ⟨some 5, some 995, some 120⟩⟩⟩]
    [-113, -113, -113, -113, 0] (by decide)

/-- Claim C2, evaluated at the failing input: with `window_time = 50`, a
queue `[0, 55]` and `now = 60`, the front entry (age 60, stale) must be
evicted and the second entry (age 5, fresh) must be kept; the pruning
loop of `_request_get` instead empties the whole queue, because the
`oldest_request_unixtime` it compares against is never recomputed after a
`popleft`.  The fresh entry 55 is evicted even though `60 - 55 ≤ 50`. -/
theorem c2_prune_evicts_fresh_entry :
    pruneLoop 50 60 (oldestEntry [0, 55]) [0, 55] = [] ∧ (60 : Int) - 55 ≤ 50 := by
  decide

theorem backfill_eq_take (m k : Nat) (t : Int) (q : List Int) (h : q.length ≤ m) :
    backfill m k t q = (List.replicate k t ++ q).take m := by
  induction k generalizing q with
  | zero =>
    simp only [backfill, List.replicate_zero, List.nil_append]
    exact (List.take_of_length_le h).symm
  | succ k ih =>
    show backfill m k t (dequeAppendLeft m q t) = _
    rw [ih _ (dequeAppendLeft_length_le m q t h)]
    unfold dequeAppendLeft
    split
    · rename_i hlt
      have : List.replicate k t ++ t :: q = List.replicate (k + 1) t ++ q := by
        rw [List.replicate_succ', List.append_assoc]
        rfl
      rw [this]
    · split
      · rename_i hge hm
        subst hm
        simp
      · rename_i hge hm
        have hql : q.length = m := by omega
        have h1 : List.replicate k t ++ t :: q.dropLast =
            List.replicate (k + 1) t ++ q.dropLast := by
          rw [List.replicate_succ', List.append_assoc]
          rfl
        rw [h1, List.take_append_eq_append_take, List.take_append_eq_append_take]
        have hrep : (List.replicate (k + 1) t).length = k + 1 := by simp
        rw [hrep]
        congr 1
        rw [List.dropLast_eq_take, List.take_take, hql]
        congr 1
        omega

theorem min_ite_int (a b : Int) : (if a < b then a else b) = min a b := by
  split <;> omega

/-- Claim C6, refuted at a concrete run: when the first successful call
reports `X-Ratelimit-Used = 1`, the `_just_started` flag stays set, and
quota reconciliation (backfilling 4 synthetic entries) happens on the
SECOND successful call of the process, contradicting "only on the very
first successful call ... never on any later call". -/
theorem c6_counterexample_second_call_reconciles :
    (request_get (initState 600 1000) 0 0 ⟨200, ⟨some 1, some 999, some 100⟩⟩).2 = none ∧
    (request_get (initState 600 1000) 0 0 ⟨200, ⟨some 1, some 999, some 100⟩⟩).1.justStarted
      = true ∧
    (request_get (request_get (initState 600 1000) 0 0 ⟨200, ⟨some 1, some 999, some 100⟩⟩).1
        7 7 ⟨200, ⟨some 5, some 995, some 120⟩⟩).1.queue = [-113, -113, -113, -113, 0, 7] ∧
    (request_get (request_get (initState 600 1000) 0 0 ⟨200, ⟨some 1, some 999, some 100⟩⟩).1
        7 7 ⟨200, ⟨some 5, some 995, some 120⟩⟩).1.justStarted = false := by
  decide

/-- Claim C6 as amended: quota reconciliation happens at most once per
process — on the first successful call whose response carries the
rate-limit headers and reports more than one request used.  Once the
`_just_started` flag has been cleared (which reconciliation does), no
later call ever reconciles: its queue update is exactly prune-then-append
and the flag stays cleared. -/
theorem c6_amended_never_reconciles_after_flag_cleared (s : RMState) (n1 n2 : Int) (r : Resp)
    (h : s.justStarted = false) :
    (request_get s n1 n2 r).1.justStarted = false ∧
    (request_get s n1 n2 r).1.queue =
      dequeAppend s.maxRequests (pruneLoop s.windowTime n1 (oldestEntry s.queue) s.queue) n2 := by
  dsimp only [request_get]
  split
  · exact ⟨h, rfl⟩
  · dsimp only [reconcileStep]
    split
    · exact ⟨h, rfl⟩
    · rw [if_neg]
      · exact ⟨h, rfl⟩
      · dsimp only
        rw [h]
        simp

/-- Witness for the amended C6 at a concrete later-call input. -/
theorem c6_amended_witness :
    (request_get ⟨false, 600, 10, []⟩ 0 0 ⟨200, ⟨some 5, some 995, some 120⟩⟩).1.justStarted
      = false ∧
    (request_get ⟨false, 600, 10, []⟩ 0 0 ⟨200, ⟨some 5, some 995, some 120⟩⟩).1.queue =
      dequeAppend (RMState.mk false 600 10 []).maxRequests
        (pruneLoop (RMState.mk false 600 10 []).windowTime 0
          (oldestEntry (RMState.mk false 600 10 []).queue) (RMState.mk false 600 10 []).queue)
        0 :=
  c6_amended_never_reconciles_after_flag_cleared ⟨false, 600, 10, []⟩ 0 0
    ⟨200, ⟨some 5, some 995, some 120⟩⟩ rfl

/-- Claim C7: (1) on a first successful call from an empty window with
`window_time = 600` and headers `Used=5, Remaining=995, Reset=120`, the
window afterwards holds exactly 5 entries — the just-sent timestamp
`now2` preceded by 4 backfilled entries `now2 - 120` at the front; and
(2) in general a reconciling call pushes `requests_used - 1` synthetic
entries with timestamp `now2 - min(window_time, reset)` onto the front of
the pruned-and-appended window (truncated to the deque capacity). -/
theorem c7_backfill_entries :
    (∀ (s : RMState) (now1 now2 : Int),
        s.queue = [] → s.justStarted = true → s.windowTime = 600 → 5 ≤ s.maxRequests →
        (request_get s now1 now2 ⟨200, ⟨some 5, some 995, some 120⟩⟩).1.queue =
          List.replicate 4 (now2 - 120) ++ [now2]) ∧
    (∀ (s : RMState) (now1 now2 used reset rem : Int),
        s.justStarted = true → 1 < used → s.queue.length ≤ s.maxRequests →
        (request_get s now1 now2 ⟨200, ⟨some used, some rem, some reset⟩⟩).1.queue =
          (List.replicate (used - 1).toNat (now2 - min s.windowTime reset) ++
            dequeAppend s.maxRequests
              (pruneLoop s.windowTime now1 (oldestEntry s.queue) s.queue) now2).take
            s.maxRequests) := by
  have hgen : ∀ (s : RMState) (now1 now2 used reset rem : Int),
      s.justStarted = true → 1 < used → s.queue.length ≤ s.maxRequests →
      (request_get s now1 now2 ⟨200, ⟨some used, some rem, some reset⟩⟩).1.queue =
        (List.replicate (used - 1).toNat (now2 - min s.windowTime reset) ++
          dequeAppend s.maxRequests
            (pruneLoop s.windowTime now1 (oldestEntry s.queue) s.queue) now2).take
          s.maxRequests := by
    intro s now1 now2 used reset rem hjs hused hlen
    dsimp only [request_get]
    rw [if_neg (by decide)]
    dsimp only [reconcileStep]
    rw [if_pos ⟨hjs, hused⟩]
    dsimp only
    rw [backfill_eq_take _ _ _ _
      (dequeAppend_length_le _ _ _ (le_trans (pruneLoop_length_le _ _ _ _) hlen))]
    rw [min_ite_int]
  refine ⟨?_, hgen⟩
  intro s now1 now2 h1 h2 h3 h4
  have hq := hgen s now1 now2 5 120 995 h2 (by omega) (by rw [h1]; simp)
  rw [hq, h1, h3]
  have hmax : 0 < s.maxRequests := by omega
  have hpp : pruneLoop 600 now1 (oldestEntry ([] : List Int)) [] = [] := rfl
  rw [hpp]
  have hda : dequeAppend s.maxRequests [] now2 = [now2] := by
    unfold dequeAppend
    rw [if_pos]
    · rfl
    · simpa using hmax
  rw [hda]
  have h5 : ((5 : Int) - 1).toNat = 4 := by decide
  have hmin : min (600 : Int) 120 = 120 := by decide
  rw [h5, hmin]
  exact List.take_of_length_le (by simpa using h4)

/-- Witness for C7 at a concrete input. -/
theorem c7_backfill_entries_witness :
    (request_get ⟨true, 600, 1000, []⟩ 50 50 ⟨200, ⟨some 5, some 995, some 120⟩⟩).1.queue =
      List.replicate 4 ((50 : Int) - 120) ++ [50] :=
  c7_backfill_entries.1 ⟨true, 600, 1000, []⟩ 50 50 rfl rfl rfl (by decide)

/-- Claim C8, refuted at a concrete input: a 200 response carrying
`X-Ratelimit-Used = 5` but missing `X-Ratelimit-Reset` and
`X-Ratelimit-Remaining` makes the first call of a freshly started
manager raise (a `KeyError` at the `resp.headers["X-Ratelimit-Reset"]`
lookup), contradicting "never raises for any subset of absent
headers". -/
theorem c8_counterexample_partial_headers_raise :
    (request_get (initState 600 1000) 0 0 ⟨200, ⟨some 5, none, none⟩⟩).2 =
      some ReqError.missingHeader := by
  decide

/-- Claim C8 as amended: a successful (status-200) call returns without
raising if and only if `X-Ratelimit-Used` is absent, or the manager is
past its just-started phase, or the reported usage is at most 1, or both
`X-Ratelimit-Reset` and `X-Ratelimit-Remaining` are present.  In
particular absence of all three headers degrades gracefully, but a
response with `Used` present and `Reset` or `Remaining` absent raises on
the first reconciling call. -/
theorem c8_amended_success_no_raise_iff (s : RMState) (n1 n2 : Int) (h : RespHeaders) :
    (request_get s n1 n2 ⟨200, h⟩).2 = none ↔
      (h.used = none ∨ s.justStarted = false ∨
        (∃ u, h.used = some u ∧ u ≤ 1) ∨ (h.reset ≠ none ∧ h.remaining ≠ none)) := by
  obtain ⟨u, rem, rst⟩ := h
  dsimp only [request_get]
  rw [if_neg (by decide)]
  dsimp only [reconcileStep]
  cases u with
  | none => simp
  | some uv =>
    dsimp only
    by_cases hjs : s.justStarted = true
    · by_cases hu : 1 < uv
      · rw [if_pos ⟨hjs, hu⟩]
        cases rst with
        | none =>
          apply iff_of_false
          · simp
          · rintro (h1 | h2 | ⟨u', hu', hle⟩ | ⟨hr, _⟩)
            · exact Option.noConfusion h1
            · rw [hjs] at h2
              exact Bool.noConfusion h2
            · injection hu' with huv
              omega
            · exact hr rfl
        | some rv =>
          cases rem with
          | none =>
            apply iff_of_false
            · simp
            · rintro (h1 | h2 | ⟨u', hu', hle⟩ | ⟨_, hr⟩)
              · exact Option.noConfusion h1
              · rw [hjs] at h2
                exact Bool.noConfusion h2
              · injection hu' with huv
                omega
              · exact hr rfl
          | some remv =>
            apply iff_of_true rfl
            exact Or.inr (Or.inr (Or.inr ⟨by simp, by simp⟩))
      · rw [if_neg (fun hc => hu hc.2)]
        apply iff_of_true rfl
        exact Or.inr (Or.inr (Or.inl ⟨uv, rfl, by omega⟩))
    · rw [if_neg (fun hc => hjs hc.1)]
      apply iff_of_true rfl
      exact Or.inr (Or.inl (by revert hjs; cases s.justStarted <;> simp))

/-! ## Lemmas about comment-tree expansion -/

theorem process_things_fst_sublist (things : List MCThing) :
    List.Sublist (process_things things).1 (things.map MCThing.id) := by
  induction things with
  | nil => simp [process_things]
  | cons t ts ih =>
    dsimp only [process_things, List.map_cons]
    split
    · exact List.Sublist.trans ih (List.sublist_cons_self _ _)
    · exact List.Sublist.cons₂ _ ih

theorem flatten_map_process_sublist (l : List (List MCThing)) :
    List.Sublist (l.map (fun r => (process_things r).1)).flatten
      (l.map (fun r => r.map MCThing.id)).flatten := by
  induction l with
  | nil => simp
  | cons r l ih =>
    simp only [List.map_cons, List.flatten_cons]
    exact List.Sublist.append (process_things_fst_sublist r) ih

theorem mcGo_consumed (fuel : Nat) : ∀ (chunks : List (List String))
    (oracle : List (List MCThing)) (acc : List String) (reqs : List (List String))
    (oRem : List (List MCThing)),
    mcGo fuel chunks oracle = some (acc, reqs, oRem) →
    ∃ consumed, oracle = consumed ++ oRem ∧
      acc = (consumed.map (fun r => (process_things r).1)).flatten := by
  induction fuel with
  | zero =>
    intro chunks oracle acc reqs oRem h
    match chunks, oracle with
    | [], oracle =>
      simp only [mcGo, Option.some.injEq, Prod.mk.injEq] at h
      obtain ⟨h1, h2, h3⟩ := h
      exact ⟨[], by simp [h3], by simp [h1]⟩
    | c :: rest, [] => simp [mcGo] at h
    | c :: rest, things :: oracle1 => simp [mcGo] at h
  | succ fuel ih =>
    intro chunks oracle acc reqs oRem h
    match chunks, oracle with
    | [], oracle =>
      simp only [mcGo, Option.some.injEq, Prod.mk.injEq] at h
      obtain ⟨h1, h2, h3⟩ := h
      exact ⟨[], by simp [h3], by simp [h1]⟩
    | c :: rest, [] => simp [mcGo] at h
    | c :: rest, things :: oracle1 =>
      simp only [mcGo] at h
      by_cases hp : 0 < (process_things things).2.length
      · rw [if_pos hp] at h
        cases hsub : mcGo fuel (mcChunks (process_things things).2) oracle1 with
        | none => rw [hsub] at h; simp at h
        | some trip =>
          obtain ⟨a2, r2, o2⟩ := trip
          rw [hsub] at h
          dsimp only at h
          cases hrest : mcGo fuel rest o2 with
          | none => rw [hrest] at h; simp at h
          | some tripR =>
            obtain ⟨aR, rR, oR⟩ := tripR
            rw [hrest] at h
            simp only [Option.some.injEq, Prod.mk.injEq] at h
            obtain ⟨hacc, hreqs, hrem⟩ := h
            obtain ⟨pre2, hpre2, ha2⟩ := ih _ _ _ _ _ hsub
            obtain ⟨pre3, hpre3, ha3⟩ := ih _ _ _ _ _ hrest
            refine ⟨things :: (pre2 ++ pre3), ?_, ?_⟩
            · rw [hpre2, hpre3] at *
              simp [List.append_assoc, hrem]
            · rw [← hacc, ha2, ha3]
              simp [List.append_assoc]
      · rw [if_neg hp] at h
        dsimp only at h
        cases hrest : mcGo fuel rest oracle1 with
        | none => rw [hrest] at h; simp at h
        | some tripR =>
          obtain ⟨aR, rR, oR⟩ := tripR
          rw [hrest] at h
          simp only [Option.some.injEq, Prod.mk.injEq] at h
          obtain ⟨hacc, hreqs, hrem⟩ := h
          obtain ⟨pre3, hpre3, ha3⟩ := ih _ _ _ _ _ hrest
          refine ⟨things :: pre3, ?_, ?_⟩
          · rw [hpre3] at *
            simp [List.append_assoc, hrem]
          · rw [← hacc, ha3]
            simp

/-- Claim C3, refuted at a concrete input: the initial tree holds the
comment `"a"` and a `"more"` placeholder for `["b"]`; the batch fetch for
`["b"]` returns a thing whose data record is `"a"` again (the code keeps
no seen-id set), so `"a"` appears twice in `get_comments`' result. -/
theorem c3_counterexample_duplicate_id :
    get_comments 1
        (ThingList.cons (Thing.comment "a" Replies.empty)
          (ThingList.cons (Thing.more ["b"]) ThingList.nil))
        [[⟨false, 0, "a", [], none⟩]] =
      some (["a", "a"], [["b"]]) ∧
    ¬ (["a", "a"] : List String).Nodup := by
  constructor
  · decide
  · decide

/-- Claim C3 as amended: every record in `get_comments`' output comes
either from a non-"more" node of the initial tree (exactly once per
occurrence, in depth-first order) or from a thing returned by the server;
since no seen-id set is kept, ids are pairwise distinct in the output
only under the assumption that the tree's comment ids together with all
server-returned thing ids are pairwise distinct — under that assumption
every id appears at most once. -/
theorem c3_amended_nodup (fuel : Nat) (tree : ThingList) (oracle : List (List MCThing))
    (out : List String) (reqs : List (List String))
    (h : get_comments fuel tree oracle = some (out, reqs))
    (hnd : ((dfs_comments tree).1 ++
        (oracle.map (fun r => r.map MCThing.id)).flatten).Nodup) :
    out.Nodup := by
  dsimp only [get_comments, dfs_morechildren] at h
  by_cases hp : 0 < (dfs_comments tree).2.length
  · rw [if_pos hp] at h
    cases hgo : mcGo fuel (mcChunks (dfs_comments tree).2) oracle with
    | none => rw [hgo] at h; simp at h
    | some trip =>
      obtain ⟨a2, reqs2, oRem⟩ := trip
      rw [hgo] at h
      simp only [Option.some.injEq, Prod.mk.injEq] at h
      obtain ⟨hout, hreqs⟩ := h
      obtain ⟨consumed, hcons, hacc⟩ := mcGo_consumed fuel _ _ _ _ _ hgo
      have hsub1 : List.Sublist a2 ((consumed.map (fun r => r.map MCThing.id)).flatten) := by
        rw [hacc]
        exact flatten_map_process_sublist consumed
      have hsub2 : List.Sublist ((consumed.map (fun r => r.map MCThing.id)).flatten)
          ((oracle.map (fun r => r.map MCThing.id)).flatten) := by
        rw [hcons]
        simp only [List.map_append, List.flatten_append]
        exact List.sublist_append_left _ _
      have hsub : List.Sublist out
          ((dfs_comments tree).1 ++ (oracle.map (fun r => r.map MCThing.id)).flatten) := by
        rw [← hout]
        exact List.Sublist.append_left (hsub1.trans hsub2) _
      exact List.Nodup.sublist hsub hnd
  · rw [if_neg hp] at h
    simp only [Option.some.injEq, Prod.mk.injEq] at h
    obtain ⟨hout, _⟩ := h
    rw [← hout]
    exact List.Nodup.sublist (List.sublist_append_left _ _) hnd

/-- Witness for the amended C3 at a concrete input. -/
theorem c3_amended_nodup_witness : (["a", "b"] : List String).Nodup :=
  c3_amended_nodup 1
    (ThingList.cons (Thing.comment "a" Replies.empty)
      (ThingList.cons (Thing.more ["b"]) ThingList.nil))
    [[⟨false, 0, "b", [], none⟩]] ["a", "b"] [["b"]] (by decide) (by decide)

/-- Claim C4, refuted at a concrete input: a frontier of 101 ids is cut
into chunks of 100 and 1; the response to the first chunk returns a
"more" placeholder with count 1 and child `"z"`, and the request for
`"z"` (the discovered id) is issued BEFORE the second chunk `["a"]` of
the current frontier — the request order is `[100-id chunk, ["z"],
["a"]]`, not the round-based `[100-id chunk, ["a"], ["z"]]`. -/
theorem c4_counterexample_not_round_based :
    dfs_morechildren 3 (List.replicate 101 "a")
        [[⟨true, 1, "", ["z"], none⟩], [⟨false, 0, "z", [], none⟩],
         [⟨false, 0, "a2", [], none⟩]] =
      some (["z", "a2"], [List.replicate 100 "a", ["z"], ["a"]], []) := by
  decide

/-- Claim C4 as amended: ids discovered while processing one chunk are
collected into a per-chunk list and, when non-empty, that list is
expanded immediately by a recursive `dfs_morechildren` call inside the
chunk loop: the entire recursive expansion (its accumulated records `a2`
and its requests `r2`) comes before the remaining chunks of the current
frontier are processed (depth-first, not round-based). -/
theorem c4_amended_per_chunk_depth_first (fuel : Nat) (chunk : List String)
    (rest : List (List String)) (things : List MCThing) (oracle1 : List (List MCThing))
    (a2 aR : List String) (r2 rR : List (List String)) (o2 oR : List (List MCThing))
    (hp : 0 < (process_things things).2.length)
    (hsub : mcGo fuel (mcChunks (process_things things).2) oracle1 = some (a2, r2, o2))
    (hrest : mcGo fuel rest o2 = some (aR, rR, oR)) :
    mcGo (fuel + 1) (chunk :: rest) (things :: oracle1) =
      some ((process_things things).1 ++ a2 ++ aR, chunk :: (r2 ++ rR), oR) := by
  simp only [mcGo]
  rw [if_pos hp, hsub]
  dsimp only
  rw [hrest]

/-- Witness for the amended C4 at a concrete input. -/
theorem c4_amended_per_chunk_depth_first_witness :
    mcGo 2 [["q"]] [[⟨true, 1, "", ["z"], none⟩], [⟨false, 0, "z", [], none⟩]] =
      some ((process_things [⟨true, 1, "", ["z"], none⟩]).1 ++ ["z"] ++ [],
        ["q"] :: ([["z"]] ++ []), []) :=
  c4_amended_per_chunk_depth_first 1 ["q"] [] [⟨true, 1, "", ["z"], none⟩]
    [[⟨false, 0, "z", [], none⟩]] ["z"] [] [["z"]] [] [] []
    (by decide) (by decide) (by decide)

/-- Claim C5, refuted at a concrete input: a frontier of exactly 100 ids
is a single chunk under a partition into chunks of `BATCH_SIZE`, yet the
loop bound `1 + len // BATCH_SIZE` makes the code issue 2 batch requests,
the second with an empty id slice. -/
theorem c5_counterexample_empty_trailing_batch :
    dfs_morechildren 2 (List.replicate 100 "a")
        [[⟨false, 0, "z", [], none⟩], [⟨false, 0, "z", [], none⟩]] =
      some (["z", "z"], [List.replicate 100 "a", []], []) ∧
    1 + (List.replicate 100 "a").length / BATCH_SIZE ≠ 1 := by
  constructor
  · decide
  · decide

theorem flatten_chunks_aux (m : Nat) : ∀ l : List String, l.length ≤ BATCH_SIZE * m →
    ((List.range m).map (fun i => (l.drop (BATCH_SIZE * i)).take BATCH_SIZE)).flatten = l := by
  induction m with
  | zero =>
    intro l h
    simp only [Nat.mul_zero, Nat.le_zero, List.length_eq_zero] at h
    subst h
    simp
  | succ m ih =>
    intro l h
    rw [List.range_succ_eq_map]
    simp only [List.map_cons, List.flatten_cons, List.map_map]
    have hmap : ((List.range m).map
        ((fun i => (l.drop (BATCH_SIZE * i)).take BATCH_SIZE) ∘ Nat.succ)) =
        (List.range m).map
          (fun i => ((l.drop BATCH_SIZE).drop (BATCH_SIZE * i)).take BATCH_SIZE) := by
      apply List.map_congr_left
      intro i _
      simp only [Function.comp_apply]
      have hidx : BATCH_SIZE * Nat.succ i = BATCH_SIZE + BATCH_SIZE * i := by
        unfold BATCH_SIZE
        omega
      rw [hidx, ← List.drop_drop]
    rw [hmap, ih (l.drop BATCH_SIZE) (by simp [BATCH_SIZE] at h ⊢; omega)]
    rw [Nat.mul_zero, List.drop_zero, List.take_append_drop]

theorem mcChunks_flatten (ids : List String) : (mcChunks ids).flatten = ids := by
  apply flatten_chunks_aux
  unfold BATCH_SIZE
  omega

/-- Claim C5 as amended: the chunk loop cuts a frontier of `n` ids into
`1 + n / BATCH_SIZE` consecutive, order-preserving slices
`ids[100*i : 100*i + 100]` (which concatenate back to the frontier), one
batch request per slice — so a frontier of 250 ids yields exactly 3 batch
requests of 100, 100 and 50 ids in the first round, but when
`BATCH_SIZE` divides `n` the final slice is empty and still issues a
request (see the counterexample). -/
theorem c5_amended_slices_and_250_scenario :
    (∀ ids : List String,
        (mcChunks ids).length = 1 + ids.length / BATCH_SIZE ∧
        (mcChunks ids).flatten = ids) ∧
    (∀ ids : List String, ids.length = 250 →
        dfs_morechildren 3 ids
            [[⟨false, 0, "z", [], none⟩], [⟨false, 0, "z", [], none⟩],
             [⟨false, 0, "z", [], none⟩]] =
          some (["z", "z", "z"],
            [ids.take 100, (ids.drop 100).take 100, (ids.drop 200).take 100], [])) := by
  constructor
  · intro ids
    exact ⟨by simp [mcChunks], mcChunks_flatten ids⟩
  · intro ids hlen
    have hch : mcChunks ids =
        [ids.take 100, (ids.drop 100).take 100, (ids.drop 200).take 100] := by
      unfold mcChunks BATCH_SIZE
      rw [hlen]
      norm_num
      rw [show (3 : Nat) = 2 + 1 by rfl, List.range_succ]
      rw [show (2 : Nat) = 1 + 1 by rfl, List.range_succ]
      rw [show (1 : Nat) = 0 + 1 by rfl, List.range_succ]
      simp
    unfold dfs_morechildren
    rw [hch]
    simp [mcGo, process_things]

set_option maxRecDepth 4000 in
/-- Witness for the amended C5 at a concrete frontier of 250 ids. -/
theorem c5_amended_witness :
    dfs_morechildren 3 (List.replicate 250 "a")
        [[⟨false, 0, "z", [], none⟩], [⟨false, 0, "z", [], none⟩],
         [⟨false, 0, "z", [], none⟩]] =
      some (["z", "z", "z"],
        [(List.replicate 250 "a").take 100,
         ((List.replicate 250 "a").drop 100).take 100,
         ((List.replicate 250 "a").drop 200).take 100], []) :=
  c5_amended_slices_and_250_scenario.2 (List.replicate 250 "a") (by simp)

/-- Claim C9: the search loop runs until the seen-id count reaches the
target or the server omits the `after` cursor, whichever comes first
(captured by `LoopRun`: every continuing step has seen < target and a
cursor; the run ends by `done` — count reached — or `last` — cursor
absent), one request per accumulated page, and it may legally return
fewer than the target; in the mocked scenario (one page of 5 items,
`after = null`, target 5) it makes exactly 1 request and returns exactly
5 records tagged with the query term. -/
theorem c9_search_pagination :
    (∀ (num : Nat) (oracle : List SearchPage) (seen : List String)
        (pages : List SearchPage) (n : Nat),
        searchLoop num oracle seen = some (pages, n) →
        n = pages.length ∧ (∃ rest2, oracle = pages ++ rest2) ∧ LoopRun num seen pages) ∧
    search_posts "x" 5 [⟨["a", "b", "c", "d", "e"], none⟩] =
      some ([("a", "x"), ("b", "x"), ("c", "x"), ("d", "x"), ("e", "x")], 1) ∧
    (search_posts "x" 5 [⟨["a", "b", "c"], none⟩] =
        some ([("a", "x"), ("b", "x"), ("c", "x")], 1) ∧ 3 < 5) := by
  refine ⟨?_, by decide, by decide, by decide⟩
  intro num oracle
  induction oracle with
  | nil =>
    intro seen pages n h
    simp only [searchLoop] at h
    split at h
    · rename_i hc
      simp only [Option.some.injEq, Prod.mk.injEq] at h
      obtain ⟨h1, h2⟩ := h
      subst h1
      subst h2
      exact ⟨rfl, ⟨[], rfl⟩, LoopRun.done seen hc⟩
    · exact absurd h (by simp)
  | cons p rest ih =>
    intro seen pages n h
    simp only [searchLoop] at h
    split at h
    · rename_i hc
      simp only [Option.some.injEq, Prod.mk.injEq] at h
      obtain ⟨h1, h2⟩ := h
      subst h1
      subst h2
      exact ⟨rfl, ⟨p :: rest, rfl⟩, LoopRun.done seen hc⟩
    · rename_i hc
      have hlt : seen.length < num := by omega
      cases hp : p.after with
      | none =>
        rw [hp] at h
        simp only [Option.some.injEq, Prod.mk.injEq] at h
        obtain ⟨h1, h2⟩ := h
        subst h1
        subst h2
        exact ⟨rfl, ⟨rest, rfl⟩, LoopRun.last seen p hlt hp⟩
      | some a =>
        rw [hp] at h
        cases hrec : searchLoop num rest (updateSeen seen p.postIds) with
        | none => rw [hrec] at h; simp at h
        | some pr =>
          obtain ⟨ps, m⟩ := pr
          rw [hrec] at h
          simp only [Option.some.injEq, Prod.mk.injEq] at h
          obtain ⟨h1, h2⟩ := h
          subst h1
          subst h2
          obtain ⟨hn, ⟨r2, hr2⟩, hrun⟩ := ih _ _ _ hrec
          refine ⟨by simp [hn], ⟨r2, by rw [hr2]; rfl⟩, ?_⟩
          exact LoopRun.step seen p ps a hlt hp hrun

/-- Witness for C9: the general loop characterization applied to a
concrete one-page run. -/
theorem c9_search_pagination_witness :
    1 = [SearchPage.mk ["a"] none].length ∧
    (∃ rest2, [SearchPage.mk ["a"] none] = [SearchPage.mk ["a"] none] ++ rest2) ∧
    LoopRun 5 [] [SearchPage.mk ["a"] none] :=
  c9_search_pagination.1 5 [⟨["a"], none⟩] [] [⟨["a"], none⟩] 1 (by decide)

/-- Claim C10 (implicit): the list `search_posts` returns is the
concatenation of every post of every fetched page, untouched by the
seen-id set (which only drives termination): concretely, a run with
target 3 whose two pages repeat the same two posts returns 4 records —
more than `num_results` — with the id `"a"` appearing twice. -/
theorem c10_output_is_raw_concatenation :
    (∀ (q : String) (num : Nat) (oracle : List SearchPage)
        (pages : List SearchPage) (n : Nat),
        searchLoop num oracle [] = some (pages, n) →
        search_posts q num oracle =
          some ((pages.map (fun p => p.postIds.map (fun i => (i, q)))).flatten, n)) ∧
    (search_posts "q" 3 [⟨["a", "b"], some "t"⟩, ⟨["a", "b"], none⟩] =
        some ([("a", "q"), ("b", "q"), ("a", "q"), ("b", "q")], 2) ∧
      3 < ([("a", "q"), ("b", "q"), ("a", "q"), ("b", "q")] : List (String × String)).length ∧
      ([("a", "q"), ("b", "q"), ("a", "q"), ("b", "q")] : List (String × String)).count
        ("a", "q") = 2) := by
  refine ⟨?_, by decide, by decide, by decide⟩
  intro q num oracle pages n h
  simp [search_posts, h]

/-- Witness for C10's general flattening characterization at a concrete
run. -/
theorem c10_output_is_raw_concatenation_witness :
    search_posts "w" 1 [⟨["z"], none⟩] =
      some ((([⟨["z"], none⟩] : List SearchPage).map
        (fun p => p.postIds.map (fun i => (i, "w")))).flatten, 1) :=
  c10_output_is_raw_concatenation.1 "w" 1 [⟨["z"], none⟩] [⟨["z"], none⟩] 1 (by decide)
